import Mathlib

/-!
Verification of the idempotent configuration patch engine of the Omarchy
post-install customization scripts (`customize.py` and `restore.py`).

File contents are modelled as `List Char`.  The Python string primitives
used by the scripts (`in`, `str.find`, slicing, `str.replace`,
`str.startswith`) are embedded as executable functions on `List Char`,
and the filesystem is modelled as a partial map from path strings to file
contents.  Every definition follows the corresponding source function;
the only definitions taken from the specification's words instead of the
source are the three comment/trailing-comma stripping transformations
(marked `Modelled from the spec`), which the spec describes but which do
not appear anywhere in the source.
-/

set_option maxRecDepth 20000

/-- Embedding of Python `s.startswith(p)` / prefix testing: `isPre p s`
is `true` iff `p` is a prefix of `s`. -/
def isPre : List Char → List Char → Bool
  | [], _ => true
  | _ :: _, [] => false
  | a :: as, b :: bs => a == b && isPre as bs

/-- Worker for `pyFind`: first match position at or after offset `i`. -/
def pyFindAux (pat : List Char) (i : Nat) : List Char → Option Nat
  | [] => if isPre pat [] then some i else none
  | c :: t => if isPre pat (c :: t) then some i else pyFindAux pat (i + 1) t

/-- Embedding of Python `s.find(pat)`: index of the first occurrence of
`pat` in `s`, or `none` when absent (Python returns `-1`). -/
def pyFind (pat : List Char) (s : List Char) : Option Nat := pyFindAux pat 0 s

/-- Embedding of Python `pat in s` (substring containment). -/
def containsSub (pat s : List Char) : Bool := (pyFind pat s).isSome

/-- Fuel-driven worker for `pyReplace`; fuel `s.length` always suffices.
Scans left to right; at each occurrence of `old` emits `new` and resumes
after the occurrence, exactly like CPython `str.replace` for nonempty
`old`. -/
def replFuel (old new : List Char) : Nat → List Char → List Char
  | 0, s => s
  | _ + 1, [] => []
  | f + 1, c :: t =>
    if isPre old (c :: t) && !old.isEmpty then
      new ++ replFuel old new f (t.drop (old.length - 1))
    else c :: replFuel old new f t

/-- Embedding of Python `s.replace(old, new)` (all occurrences, left to
right), for nonempty `old` (the only way the scripts call it). -/
def pyReplace (s old new : List Char) : List Char := replFuel old new s.length s

/-! ### Backup manager and restore engine (`backup_file_before_edit`, `restore.py`)

Paths are modelled as strings; `pathlib`'s `name`/`suffix`/`stem`/
`with_suffix` are embedded below operating on the name component after
the last `/`, as `pathlib` does. -/

/-- Index of the last occurrence of a character (used for `pathlib`'s
`rfind('.')` and the directory/name split). -/
def lastIdxOf (c : Char) : List Char → Option Nat
  | [] => none
  | x :: t =>
    match lastIdxOf c t with
    | some i => some (i + 1)
    | none => if x = c then some 0 else none

/-- Name component of a path (after the last slash), as `Path.name`. -/
def nameOf (p : List Char) : List Char :=
  match lastIdxOf '/' p with
  | some i => p.drop (i + 1)
  | none => p

/-- Directory component of a path (up to and including the last slash). -/
def dirOf (p : List Char) : List Char :=
  match lastIdxOf '/' p with
  | some i => p.take (i + 1)
  | none => []

/-- Embedding of `pathlib.PurePath.suffix` on a name: the part from the
last dot, unless the dot is leading or trailing. -/
def nameSuffix (n : List Char) : List Char :=
  match lastIdxOf '.' n with
  | some i => if 0 < i ∧ i < n.length - 1 then n.drop i else []
  | none => []

/-- Embedding of `pathlib.PurePath.suffix` on a full path. -/
def pathSuffix (p : List Char) : List Char := nameSuffix (nameOf p)

/-- Embedding of `pathlib.PurePath.stem` on a name. -/
def nameStem (n : List Char) : List Char := n.take (n.length - (nameSuffix n).length)

/-- Embedding of `Path.with_suffix(suf)`: strip the current suffix of the
name and append `suf`. -/
def withSuffix (p suf : List Char) : List Char := dirOf p ++ nameStem (nameOf p) ++ suf

/-- Backup sidecar path used by `backup_file_before_edit`:
`file_path.with_suffix(file_path.suffix + ".original")`. -/
def backupPath (p : List Char) : List Char :=
  withSuffix p (pathSuffix p ++ ".original".data)

/-- Live path derived from a backup path by `find_and_restore_backups`:
`backup_path.with_suffix('')`, falling back to `parent / stem` when the
result still carries an `.original` suffix. -/
def restoreTarget (bp : List Char) : List Char :=
  let t := withSuffix bp []
  if pathSuffix t = ".original".data then dirOf bp ++ nameStem (nameOf bp) else t

/-- Filesystem model: paths to optional file contents. -/
def FS : Type := List Char → Option (List Char)

/-- Point update of the filesystem (a write, or a delete via `none`). -/
def fsUpdate (fs : FS) (p : List Char) (v : Option (List Char)) : FS :=
  fun q => if q = p then v else fs q

/-- Empty filesystem. -/
def fsEmpty : FS := fun _ => none

/-- Outcomes of `backup_file_before_edit` (its prints / return value). -/
inductive BackupResult
  | skipped
  | alreadyExists
  | created
deriving DecidableEq

/-- Embedding of `backup_file_before_edit`: no-op when the target is
missing, no-op when a sidecar already exists, otherwise copy the target's
bytes to the sidecar path. -/
def ensureBackup (fs : FS) (p : List Char) : FS × BackupResult :=
  match fs p with
  | none => (fs, .skipped)
  | some c =>
    match fs (backupPath p) with
    | some _ => (fs, .alreadyExists)
    | none => (fsUpdate fs (backupPath p) (some c), .created)

/-- Embedding of one iteration of the restore loop in
`find_and_restore_backups`: if the sidecar exists, copy its bytes over
the derived live path. -/
def restoreOne (fs : FS) (bp : List Char) : FS :=
  match fs bp with
  | none => fs
  | some c => fsUpdate fs (restoreTarget bp) (some c)

/-! ### Fence codec (`add_fenced_content_to_file`) -/

/-- Outcome of `add_fenced_content_to_file` (both are success in the
source; the distinction is the printed message and whether a write
happened). -/
inductive FenceResult
  | added
  | alreadyPresent
deriving DecidableEq

/-- Start delimiter for a fenced block; CSS files get block-comment
syntax, every other file gets line-comment syntax. -/
def fenceStart (isCss : Bool) (label : List Char) : List Char :=
  if isCss then "/* === START ".data ++ label ++ " === */".data
  else "# === START ".data ++ label ++ " ===".data

/-- End delimiter for a fenced block. -/
def fenceEnd (isCss : Bool) (label : List Char) : List Char :=
  if isCss then "/* === END ".data ++ label ++ " === */".data
  else "# === END ".data ++ label ++ " ===".data

/-- Rendered fenced block: a leading newline, the start delimiter line,
each content line, and the end delimiter line. -/
def renderFence (isCss : Bool) (label : List Char) (contentLines : List (List Char)) :
    List Char :=
  ['\n'] ++ fenceStart isCss label ++ ['\n'] ++
    (contentLines.map (fun l => l ++ ['\n'])).flatten ++ fenceEnd isCss label ++ ['\n']

/-- Embedding of `add_fenced_content_to_file` on the current content of
the target file (missing file is the empty content, matching the
source): returns the new content and the outcome. -/
def addFenced (content : List Char) (contentLines : List (List Char))
    (label : List Char) (isCss : Bool) : List Char × FenceResult :=
  if containsSub (fenceStart isCss label) content &&
      containsSub (fenceEnd isCss label) content then
    (content, .alreadyPresent)
  else (content ++ renderFence isCss label contentLines, .added)

/-! ### Toshy session (`configure_toshy_keyboard_layout`)

String constants are byte-for-byte transcriptions of the literals in the
source (braces written with `\x7b`/`\x7d` escapes). -/

def settingsMarker : List Char := "cnfg.watch_shared_devices()     # Look for network KVM apps and watch logs (on server only)".data

def overrideConfig : List Char := "\n        # === START OMARCHY CUSTOMIZATION: Override keyboard type ===\n        cnfg.override_kbtype = 'IBM'     # Use IBM type to avoid Windows/Mac/Chromebook built-in modmaps\n        # === END OMARCHY CUSTOMIZATION: Override keyboard type ===".data

def startMarker : List Char := "###  SLICE_MARK_START: user_custom_modmaps  ###".data

def endMarker : List Char := "###  SLICE_MARK_END: user_custom_modmaps  ###".data

def customModmaps : List Char := "# === START OMARCHY CUSTOMIZATION: Custom modmaps ===\nmodmap(\"OMARCHY custom layout: Cmd→Ctrl, Ctrl→Alt, keep Super - GUI\", \x7b\n    # Left-hand modifiers\n    Key.LEFT_ALT:  Key.LEFT_CTRL,   # Alt (Cmd) → Ctrl\n    Key.LEFT_CTRL: Key.LEFT_ALT,    # Ctrl      → Alt\n    Key.LEFT_META: Key.LEFT_META,   # Win/Super stays Super\n\n    # Right-hand modifiers (optional)\n    Key.RIGHT_ALT:  Key.RIGHT_CTRL,\n    Key.RIGHT_CTRL: Key.RIGHT_ALT,\n    Key.RIGHT_META: Key.RIGHT_META,\n\x7d, when = lambda ctx:\n    not matchProps(clas=termStr)(ctx)\n)\n\nmodmap(\"OMARCHY custom layout: Terminals - preserve Ctrl/Alt, keep Super\", \x7b\n    # In terminals: keep normal Ctrl/Alt behavior but preserve Super\n    Key.LEFT_ALT:  Key.LEFT_ALT,    # Alt stays Alt\n    Key.LEFT_CTRL: Key.LEFT_CTRL,   # Ctrl stays Ctrl  \n    Key.LEFT_META: Key.LEFT_META,   # Win/Super stays Super\n\n    # Right-hand modifiers\n    Key.RIGHT_ALT:  Key.RIGHT_ALT,\n    Key.RIGHT_CTRL: Key.RIGHT_CTRL,\n    Key.RIGHT_META: Key.RIGHT_META,\n\x7d, when = lambda ctx:\n    matchProps(clas=termStr)(ctx)\n)\n# === END OMARCHY CUSTOMIZATION: Custom modmaps ===".data

def toshySignature : List Char := "OMARCHY CUSTOMIZATION: Override keyboard type".data

def modmapSig : List Char := "modmap(".data

def emacsMapping1 : List Char := "C(\"Super-a\"):               C(\"Home\"),                      # Beginning of Line".data

def emacsMapping2 : List Char := "C(\"Super-e\"):               C(\"End\"),                       # End of Line".data

def emacsMapping3 : List Char := "C(\"Super-b\"):               C(\"Left\"),".data

def emacsMapping4 : List Char := "C(\"Super-f\"):               C(\"Right\"),".data

def emacsMapping5 : List Char := "C(\"Super-n\"):               C(\"Down\"),".data

def emacsMapping6 : List Char := "C(\"Super-p\"):               C(\"Up\"),".data

def emacsMapping7 : List Char := "C(\"Super-k\"):              [C(\"Shift-End\"), C(\"Backspace\")],".data

def emacsMapping8 : List Char := "C(\"Super-d\"):               C(\"Delete\"),".data

def emacsMappings : List (List Char) :=
  [emacsMapping1, emacsMapping2, emacsMapping3, emacsMapping4,
   emacsMapping5, emacsMapping6, emacsMapping7, emacsMapping8]

/-- Outcome of the slice-insertion step (step 2 of the session). -/
inductive SpliceResult
  | inserted
  | alreadyPresent
  | markersNotFound
deriving DecidableEq

/-- Text spliced between the markers:
`content[:start_idx] + f"\n\n(custom_modmaps)\n\n" + content[end_idx:]`. -/
def spliceWrap : List Char := "\n\n".data ++ customModmaps ++ "\n\n".data

/-- Embedding of step 2 of `configure_toshy_keyboard_layout` (lines
932-952): locate the first occurrences of the slice markers, examine the
substring strictly between them for the `modmap(` signature and splice
`spliceWrap` in place of that substring when the signature is absent. -/
def spliceStep (content : List Char) : List Char × SpliceResult :=
  match pyFind startMarker content with
  | none => (content, .markersNotFound)
  | some i =>
    match pyFind endMarker content with
    | none => (content, .markersNotFound)
    | some j =>
      let startIdx := i + startMarker.length
      let sliceContent := (content.drop startIdx).take (j - startIdx)
      if containsSub modmapSig sliceContent then (content, .alreadyPresent)
      else (content.take startIdx ++ spliceWrap ++ content.drop j, .inserted)

/-- Embedding of step 1 of the session: insert the keyboard-type override
after the settings anchor line (in memory only; `str.replace` replaces
every occurrence). -/
def toshyStep1 (content : List Char) : List Char :=
  if containsSub settingsMarker content then
    pyReplace content settingsMarker (settingsMarker ++ overrideConfig)
  else content

/-- Embedding of one emacs-mapping substitution of step 3: guarded by the
bare mapping text, rewrites the four-space-indented line into a
commented-out form. -/
def emacsSub (content m : List Char) : List Char :=
  if containsSub m content then
    pyReplace content ("    ".data ++ m)
      ("    # ".data ++ m ++ "  # DISABLED by OMARCHY for Hyprland".data)
  else content

/-- Step 3 of the session: all eight substitutions in source order. -/
def emacsAll (content : List Char) : List Char := emacsMappings.foldl emacsSub content

/-- Outcome of the whole Toshy session on an existing config file. -/
inductive ToshyResult
  | alreadyConfigured
  | markersNotFound
  | updated
deriving DecidableEq

/-- Embedding of `configure_toshy_keyboard_layout` on the content of an
existing config file: returns the content of the file on disk afterwards
together with the outcome.  The file-wide signature check returns
immediately; when the slice markers are missing the function returns
before `write_text`, so the file keeps its original bytes even though
step 1 already ran in memory. -/
def configureToshy (content : List Char) : List Char × ToshyResult :=
  if containsSub toshySignature content then (content, .alreadyConfigured)
  else
    let c1 := toshyStep1 content
    match spliceStep c1 with
    | (_, .markersNotFound) => (content, .markersNotFound)
    | (c2, .inserted) => (emacsAll c2, .updated)
    | (c2, .alreadyPresent) => (emacsAll c2, .updated)

/-! ### Structured merge patcher (`customize_waybar`)

The source reads the status-bar config, calls `json.loads` on the raw
text, performs the merge on the resulting dict, and writes it back as
`"// OMARCHY CUSTOMIZATION: ..." + json.dumps(config, indent=2)`.
`json.loads` / `json.dumps` are CPython standard-library collaborators;
they are embedded below as a strict recursive-descent JSON reader
(integers only, basic escapes; constructs outside this subset are
rejected rather than misread) and an `indent=2`, `ensure_ascii` writer. -/

/-- JSON values; objects are insertion-ordered key/value lists, matching
Python dict semantics. -/
inductive JVal where
  | null
  | bool (b : Bool)
  | num (n : Int)
  | str (s : List Char)
  | arr (xs : List JVal)
  | obj (fields : List (List Char × JVal))

/-- First value bound to a key in an object (Python dict lookup). -/
def lookupKey (k : List Char) : List (List Char × JVal) → Option JVal
  | [] => none
  | e :: t => if e.1 = k then some e.2 else lookupKey k t

/-- Python `key in dict`. -/
def hasKey (k : List Char) (fields : List (List Char × JVal)) : Bool :=
  (lookupKey k fields).isSome

/-- Python `dict[key] = v`: overwrite in place when the key is present
(keeping its position), append at the end otherwise. -/
def setKey (k : List Char) (v : JVal) (fields : List (List Char × JVal)) :
    List (List Char × JVal) :=
  if hasKey k fields then fields.map (fun e => if e.1 = k then (k, v) else e)
  else fields ++ [(k, v)]

/-- Python `"key" in list` for a string key: `==` against each element is
only true for equal strings. -/
def listHasStr (key : List Char) : List JVal → Bool
  | [] => false
  | JVal.str s :: t => s == key || listHasStr key t
  | _ :: t => listHasStr key t

/-- Python `key in v` for a string key: list membership, dict key test,
substring test on strings; `none` models the `TypeError` raised on the
remaining types. -/
def pyMembership (key : List Char) : JVal → Option Bool
  | JVal.arr xs => some (listHasStr key xs)
  | JVal.obj fields => some (hasKey key fields)
  | JVal.str s => some (containsSub key s)
  | _ => none

/-- Whitespace skipping shared by the JSON reader (space, tab, newline,
carriage return, as in CPython's `json`). -/
def skipWs : List Char → List Char
  | [] => []
  | c :: t => if c = ' ' ∨ c = '\t' ∨ c = '\n' ∨ c = '\r' then skipWs t else c :: t

/-- Decoding of a two-character JSON string escape. -/
def escDecode (e : Char) : Option Char :=
  if e = '"' then some '"'
  else if e = '\\' then some '\\'
  else if e = '/' then some '/'
  else if e = 'n' then some '\n'
  else if e = 't' then some '\t'
  else if e = 'r' then some '\r'
  else if e = 'b' then some (Char.ofNat 8)
  else if e = 'f' then some (Char.ofNat 12)
  else none

/-- JSON string body reader (after the opening quote): returns the
decoded content and the remainder after the closing quote.  `\uXXXX`
escapes are rejected (outside the embedded subset). -/
def parseStringBody : Nat → List Char → Option (List Char × List Char)
  | 0, _ => none
  | _ + 1, [] => none
  | f + 1, c :: t =>
    if c = '"' then some ([], t)
    else if c = '\\' then
      match t with
      | [] => none
      | e :: t2 =>
        match escDecode e with
        | some ch => (parseStringBody f t2).map (fun r => (ch :: r.1, r.2))
        | none => none
    else if c.toNat < 32 then none
    else (parseStringBody f t).map (fun r => (c :: r.1, r.2))

/-- Splits a leading run of decimal digits from the input. -/
def digitsSplit : List Char → List Char × List Char
  | [] => ([], [])
  | c :: t =>
    if c.isDigit then
      ((c :: (digitsSplit t).1), (digitsSplit t).2)
    else ([], c :: t)

/-- Numeric value of a digit run. -/
def digitsVal (ds : List Char) : Nat := ds.foldl (fun a c => a * 10 + (c.toNat - 48)) 0

/-- JSON integer token reader (leading-zero rule enforced; a following
`.`/`e`/`E` means a float, which is outside the embedded subset and is
rejected). -/
def parseIntTok (s : List Char) : Option (JVal × List Char) :=
  let p := match s with
    | '-' :: t => (true, t)
    | _ => (false, s)
  match digitsSplit p.2 with
  | ([], _) => none
  | (d :: ds, rest) =>
    if d = '0' ∧ ds ≠ [] then none
    else
      match rest with
      | '.' :: _ => none
      | 'e' :: _ => none
      | 'E' :: _ => none
      | _ =>
        let n : Nat := digitsVal (d :: ds)
        some (JVal.num (if p.1 then -(n : Int) else (n : Int)), rest)

/-- Array member loop of the JSON reader (called after `[` when the array
is nonempty); `pv` is the value reader one fuel level down. -/
def parseArrAux (pv : List Char → Option (JVal × List Char)) :
    Nat → List JVal → List Char → Option (List JVal × List Char)
  | 0, _, _ => none
  | g + 1, acc, s =>
    match pv s with
    | none => none
    | some (v, r) =>
      match skipWs r with
      | ',' :: r2 => parseArrAux pv g (acc ++ [v]) r2
      | ']' :: r2 => some (acc ++ [v], r2)
      | _ => none

/-- Object member loop of the JSON reader; duplicate keys overwrite in
place, as for a Python dict. -/
def parseObjAux (pv : List Char → Option (JVal × List Char)) :
    Nat → List (List Char × JVal) → List Char →
    Option (List (List Char × JVal) × List Char)
  | 0, _, _ => none
  | g + 1, acc, s =>
    match skipWs s with
    | '"' :: t =>
      match parseStringBody (t.length + 1) t with
      | none => none
      | some (k, r1) =>
        match skipWs r1 with
        | ':' :: r2 =>
          match pv r2 with
          | none => none
          | some (v, r3) =>
            match skipWs r3 with
            | ',' :: r4 => parseObjAux pv g (setKey k v acc) r4
            | '\x7d' :: r4 => some (setKey k v acc, r4)
            | _ => none
        | _ => none
    | _ => none

/-- JSON value reader; fuel `input.length + 1` always suffices since each
nesting level consumes at least one character. -/
def parseVal : Nat → List Char → Option (JVal × List Char)
  | 0, _ => none
  | f + 1, s =>
    match skipWs s with
    | [] => none
    | '\x7b' :: t =>
      (match skipWs t with
       | '\x7d' :: r => some (JVal.obj [], r)
       | _ => (parseObjAux (parseVal f) f [] t).map (fun r => (JVal.obj r.1, r.2)))
    | '[' :: t =>
      (match skipWs t with
       | ']' :: r => some (JVal.arr [], r)
       | _ => (parseArrAux (parseVal f) f [] t).map (fun r => (JVal.arr r.1, r.2)))
    | '"' :: t => (parseStringBody (t.length + 1) t).map (fun r => (JVal.str r.1, r.2))
    | 't' :: 'r' :: 'u' :: 'e' :: t => some (JVal.bool true, t)
    | 'f' :: 'a' :: 'l' :: 's' :: 'e' :: t => some (JVal.bool false, t)
    | 'n' :: 'u' :: 'l' :: 'l' :: t => some (JVal.null, t)
    | c :: t => if c = '-' ∨ c.isDigit then parseIntTok (c :: t) else none

/-- True when only whitespace remains. -/
def isWsOnly (s : List Char) : Bool := (skipWs s).isEmpty

/-- Embedding of `json.loads` on the embedded subset: one value, then
only trailing whitespace. -/
def pyJsonLoads (s : List Char) : Option JVal :=
  match parseVal (s.length + 1) s with
  | some (v, r) => if isWsOnly r then some v else none
  | none => none

/-- Lowercase hex digit, as CPython's `\uXXXX` output. -/
def hexDigit (d : Nat) : Char := if d < 10 then Char.ofNat (48 + d) else Char.ofNat (87 + d)

/-- Four lowercase hex digits. -/
def hex4 (n : Nat) : List Char :=
  [hexDigit (n / 4096 % 16), hexDigit (n / 256 % 16), hexDigit (n / 16 % 16),
   hexDigit (n % 16)]

/-- JSON string-character escaping with `ensure_ascii=True`: everything
outside printable ASCII becomes `\uXXXX` (characters above the basic
multilingual plane do not occur in the data being written). -/
def escJsonChar (c : Char) : List Char :=
  if c = '"' then ['\\', '"']
  else if c = '\\' then ['\\', '\\']
  else if c = '\n' then ['\\', 'n']
  else if c = '\t' then ['\\', 't']
  else if c = '\r' then ['\\', 'r']
  else if c = Char.ofNat 8 then ['\\', 'b']
  else if c = Char.ofNat 12 then ['\\', 'f']
  else if c.toNat < 32 ∨ 127 ≤ c.toNat then '\\' :: 'u' :: hex4 c.toNat
  else [c]

/-- JSON string serialization. -/
def dumpStr (s : List Char) : List Char := '"' :: (s.map escJsonChar).flatten ++ ['"']

/-- Decimal digits of a natural number. -/
def natChars (n : Nat) : List Char := Nat.toDigits 10 n

/-- Decimal rendering of an integer. -/
def intChars : Int → List Char
  | Int.ofNat n => natChars n
  | Int.negSucc n => '-' :: natChars (n + 1)

/-- Newline followed by `d` spaces (the `indent=2` layout). -/
def nlIndent (d : Nat) : List Char := '\n' :: List.replicate d ' '

/-- Fuel-driven worker for `pyJsonDumps`; `sizeOf v` fuel always
suffices. -/
def dumpFuel : Nat → Nat → JVal → List Char
  | 0, _, _ => []
  | f + 1, d, v =>
    match v with
    | JVal.null => "null".data
    | JVal.bool true => "true".data
    | JVal.bool false => "false".data
    | JVal.num n => intChars n
    | JVal.str s => dumpStr s
    | JVal.arr [] => "[]".data
    | JVal.arr (x :: xs) =>
      '[' :: (List.intercalate [',']
          (((x :: xs).map (fun y => dumpFuel f (d + 2) y)).map
            (fun it => nlIndent (d + 2) ++ it))) ++ nlIndent d ++ [']']
    | JVal.obj [] => "\x7b\x7d".data
    | JVal.obj (e :: es) =>
      '\x7b' :: (List.intercalate [',']
          (((e :: es).map (fun kv => dumpStr kv.1 ++ ':' :: ' ' :: dumpFuel f (d + 2) kv.2)).map
            (fun it => nlIndent (d + 2) ++ it))) ++ nlIndent d ++ ['\x7d']

/-- Embedding of `json.dumps(v, indent=2)` with default `ensure_ascii`.
The fuel bounds nesting depth at 1000, mirroring CPython's recursion
limit (with `indent` the pure-Python encoder recurses per level and
raises `RecursionError` near depth 1000). -/
def pyJsonDumps (v : JVal) : List Char := dumpFuel 1000 0 v

/-- Provenance comment prepended by `customize_waybar` when it rewrites
the config. -/
def provComment : List Char := "// OMARCHY CUSTOMIZATION: Added hyprland/language module\n".data

/-- The module key `"hyprland/language"`. -/
def hlKey : List Char := "hyprland/language".data

/-- The array key `"modules-right"`. -/
def mrKey : List Char := "modules-right".data

/-- The fixed module configuration object assigned by the merge. -/
def hlModuleConfig : JVal := JVal.obj
  [ ("format".data, JVal.str ("\x7b\x7d".data)),
    ("format-en".data, JVal.str ("EN".data)),
    ("format-he".data, JVal.str ("עב".data)),
    ("on-click".data, JVal.str ("hyprctl switchxkblayout at-translated-set-2-keyboard next".data)),
    ("tooltip".data, JVal.bool true),
    ("tooltip-format".data, JVal.str ("Keyboard Layout: \x7b\x7d".data)) ]

/-- Result of the in-memory merge on the parsed document: already
configured (module key present), a raised `TypeError`/`AttributeError`
(caught by the generic handler, no write), or the merged mapping. -/
inductive MergeOutcome
  | already
  | mergeError
  | merged (fields : List (List Char × JVal))

/-- Embedding of the merge portion of `customize_waybar` (lines 799-821)
on the parsed document, including the Python membership/assignment
semantics on non-dict and non-list values. -/
def waybarMerge (v : JVal) : MergeOutcome :=
  match pyMembership hlKey v with
  | none => .mergeError
  | some true => .already
  | some false =>
    match v with
    | JVal.obj fields =>
      match lookupKey mrKey fields with
      | none =>
        .merged (setKey hlKey hlModuleConfig (fields ++ [(mrKey, JVal.arr [JVal.str hlKey])]))
      | some w =>
        match pyMembership hlKey w with
        | none => .mergeError
        | some true => .merged (setKey hlKey hlModuleConfig fields)
        | some false =>
          match w with
          | JVal.arr xs =>
            .merged (setKey hlKey hlModuleConfig
              (setKey mrKey (JVal.arr (xs ++ [JVal.str hlKey])) fields))
          | _ => .mergeError
    | _ => .mergeError

/-- Outcome of the config-file portion of `customize_waybar`. -/
inductive WaybarResult
  | parseError
  | alreadyConfigured
  | mergedOk
  | sessionError
deriving DecidableEq

/-- Embedding of the config-file portion of `customize_waybar`: read,
`json.loads` on the raw text, merge, and on success write the merged
mapping back prefixed with the provenance comment.  Returns the content
of the config file on disk afterwards together with the outcome. -/
def waybarSession (content : List Char) : List Char × WaybarResult :=
  match pyJsonLoads content with
  | none => (content, .parseError)
  | some v =>
    match waybarMerge v with
    | .already => (content, .alreadyConfigured)
    | .mergeError => (content, .sessionError)
    | .merged fields => (provComment ++ pyJsonDumps (JVal.obj fields), .mergedOk)

/-- Modelled from the spec: the `/* ... */` block-comment stripping that
section 4.4 says precedes parsing; no such code exists in the source
(`customize_waybar` parses the raw text), so the transformation is
embedded from the spec's words for comparison. -/
def stripBlockAux : Bool → List Char → List Char
  | _, [] => []
  | false, '/' :: '*' :: r => stripBlockAux true r
  | false, c :: r => c :: stripBlockAux false r
  | true, '*' :: '/' :: r => stripBlockAux false r
  | true, _ :: r => stripBlockAux true r

/-- Modelled from the spec: the `//` line-comment stripping of section
4.4 (textual, not string-aware, as documented there); absent from the
source. -/
def stripLineAux : Bool → List Char → List Char
  | _, [] => []
  | false, '/' :: '/' :: r => stripLineAux true r
  | false, c :: r => c :: stripLineAux false r
  | true, '\n' :: r => '\n' :: stripLineAux false r
  | true, _ :: r => stripLineAux true r

/-- Modelled from the spec: removal of trailing commas before a closing
brace or bracket; absent from the source. -/
def stripTrailingCommas : List Char → List Char
  | [] => []
  | ',' :: r =>
    (match skipWs r with
     | '\x7d' :: _ => stripTrailingCommas r
     | ']' :: _ => stripTrailingCommas r
     | _ => ',' :: stripTrailingCommas r)
  | c :: r => c :: stripTrailingCommas r

/-- Modelled from the spec: the three normalization passes of section
4.4 in the order the spec lists them. -/
def specNormalize (s : List Char) : List Char :=
  stripTrailingCommas (stripLineAux false (stripBlockAux false s))

/-! ## Lemmas about the string primitives -/

theorem isPre_iff {p s : List Char} : isPre p s = true ↔ ∃ t, s = p ++ t := by
  induction p generalizing s with
  | nil => simp [isPre]
  | cons a as ih =>
    cases s with
    | nil =>
      simp only [isPre, Bool.false_eq_true, false_iff]
      rintro ⟨t, ht⟩
      exact absurd ht (by simp)
    | cons b bs =>
      simp only [isPre, Bool.and_eq_true, beq_iff_eq, ih]
      constructor
      · rintro ⟨rfl, t, rfl⟩
        exact ⟨t, rfl⟩
      · rintro ⟨t, ht⟩
        have hb : b = a := by
          have := congrArg (fun l => List.head? l) ht
          simpa using this
        subst hb
        refine ⟨rfl, t, ?_⟩
        have := congrArg (fun l => List.tail l) ht
        simpa using this

theorem isPre_self_append (p t : List Char) : isPre p (p ++ t) = true :=
  isPre_iff.mpr ⟨t, rfl⟩

theorem isPre_nil_iff {p : List Char} : isPre p [] = true ↔ p = [] := by
  cases p <;> simp [isPre]

theorem isPre_length_le {p s : List Char} (h : isPre p s = true) : p.length ≤ s.length := by
  obtain ⟨t, rfl⟩ := isPre_iff.mp h
  simp

theorem isPre_append_left {x a b : List Char} (h : isPre x (a ++ b) = true)
    (hl : x.length ≤ a.length) : isPre x a = true := by
  obtain ⟨t, ht⟩ := isPre_iff.mp h
  refine isPre_iff.mpr ⟨a.drop x.length, ?_⟩
  have h1 : a.take x.length = x := by
    have := congrArg (fun l => List.take x.length l) ht
    simp only at this
    rw [List.take_append_of_le_length hl] at this
    rw [this, List.take_left']
    rfl
  conv_lhs => rw [← List.take_append_drop x.length a]
  rw [h1]

theorem isPre_extend {x a : List Char} (b : List Char) (h : isPre x a = true) :
    isPre x (a ++ b) = true := by
  obtain ⟨t, rfl⟩ := isPre_iff.mp h
  exact isPre_iff.mpr ⟨t ++ b, by simp⟩

theorem isPre_take_eq {p x y : List Char} (h : isPre p (x ++ y) = true)
    (hl : x.length ≤ p.length) : p.take x.length = x := by
  obtain ⟨t, ht⟩ := isPre_iff.mp h
  have := congrArg (fun l => List.take x.length l) ht
  simp only at this
  rw [List.take_append_of_le_length hl, List.take_left] at this
  exact this.symm

theorem pyFindAux_eq_some {pat : List Char} :
    ∀ (n : Nat) (s : List Char) (i : Nat),
      isPre pat (s.drop n) = true →
      (∀ j, j < n → isPre pat (s.drop j) = false) →
      pyFindAux pat i s = some (i + n) := by
  intro n
  induction n with
  | zero =>
    intro s i hp _
    cases s with
    | nil => simp only [pyFindAux, List.drop] at hp ⊢; rw [hp]; rfl
    | cons c t => simp only [pyFindAux, List.drop] at hp ⊢; rw [hp]; rfl
  | succ n ih =>
    intro s i hp hn
    cases s with
    | nil =>
      exfalso
      have h0 : isPre pat [] = false := hn 0 (Nat.succ_pos n)
      have hp' : isPre pat [] = true := hp
      rw [h0] at hp'
      exact absurd hp' (by simp)
    | cons c t =>
      have h0 : isPre pat (c :: t) = false := hn 0 (Nat.succ_pos n)
      simp only [pyFindAux, h0, Bool.false_eq_true, if_false]
      have : i + (n + 1) = (i + 1) + n := by omega
      rw [this]
      refine ih t (i + 1) ?_ ?_
      · simpa [List.drop] using hp
      · intro j hj
        have := hn (j + 1) (by omega)
        simpa [List.drop] using this

theorem pyFind_eq_some {pat s : List Char} {n : Nat}
    (hp : isPre pat (s.drop n) = true)
    (hn : ∀ j, j < n → isPre pat (s.drop j) = false) :
    pyFind pat s = some n := by
  have := pyFindAux_eq_some n s 0 hp hn
  simpa [pyFind] using this

theorem pyFindAux_isSome {pat : List Char} :
    ∀ (s : List Char) (i : Nat),
      (pyFindAux pat i s).isSome = true ↔ ∃ k, isPre pat (s.drop k) = true := by
  intro s
  induction s with
  | nil =>
    intro i
    simp only [pyFindAux]
    constructor
    · intro h
      by_cases hp : isPre pat [] = true
      · exact ⟨0, by simpa using hp⟩
      · rw [if_neg hp] at h; simp at h
    · rintro ⟨k, hk⟩
      rw [List.drop_of_length_le (by simp)] at hk
      rw [if_pos hk]; rfl
  | cons c t ih =>
    intro i
    cases hp : isPre pat (c :: t) with
    | true =>
      simp only [pyFindAux, hp, if_true]
      exact ⟨fun _ => ⟨0, by simpa using hp⟩, fun _ => rfl⟩
    | false =>
      simp only [pyFindAux, hp, Bool.false_eq_true, if_false]
      rw [ih (i + 1)]
      constructor
      · rintro ⟨k, hk⟩
        exact ⟨k + 1, by simpa [List.drop] using hk⟩
      · rintro ⟨k, hk⟩
        cases k with
        | zero =>
          simp only [List.drop_zero] at hk
          rw [hp] at hk
          exact absurd hk (by simp)
        | succ k => exact ⟨k, by simpa [List.drop] using hk⟩

theorem containsSub_iff {pat s : List Char} :
    containsSub pat s = true ↔ ∃ k, isPre pat (s.drop k) = true := by
  unfold containsSub pyFind
  exact pyFindAux_isSome s 0

theorem containsSub_of_at {pat s : List Char} {i : Nat}
    (h : isPre pat (s.drop i) = true) : containsSub pat s = true :=
  containsSub_iff.mpr ⟨i, h⟩

theorem containsSub_append_right {pat b : List Char} (a : List Char)
    (h : containsSub pat b = true) : containsSub pat (a ++ b) = true := by
  obtain ⟨k, hk⟩ := containsSub_iff.mp h
  refine containsSub_of_at (i := a.length + k) ?_
  rw [← List.drop_drop, List.drop_left]
  exact hk

theorem containsSub_mid (pat x y : List Char) : containsSub pat (x ++ (pat ++ y)) = true := by
  refine containsSub_of_at (i := x.length) ?_
  rw [List.drop_left]
  exact isPre_self_append pat y

theorem containsSub_drop_false {pat s : List Char} (n : Nat)
    (h : containsSub pat s = false) : containsSub pat (s.drop n) = false := by
  by_contra hc
  have hc' : containsSub pat (s.drop n) = true := by
    cases hx : containsSub pat (s.drop n)
    · exact absurd hx hc
    · rfl
  obtain ⟨k, hk⟩ := containsSub_iff.mp hc'
  rw [List.drop_drop] at hk
  exact absurd (containsSub_of_at hk) (by rw [h]; simp)

theorem containsSub_false_at {pat s : List Char} (i : Nat)
    (h : containsSub pat s = false) : isPre pat (s.drop i) = false := by
  cases hx : isPre pat (s.drop i)
  · rfl
  · exact absurd (containsSub_of_at hx) (by rw [h]; simp)

/-! ## Replacing `old` by `old ++ ins` cannot create pattern occurrences

`toshyStep1` rewrites `settingsMarker` into `settingsMarker ++
overrideConfig` via `str.replace`.  The lemma below shows that replacing
`old` by `old ++ ins` cannot create a new occurrence of a pattern `pat`
when (i) `pat` is nonempty and no longer than `old`, (ii) `pat` does not
occur in `old ++ ins`, and (iii) no nonempty proper suffix of
`old ++ ins` is a prefix of `pat`; the slice markers satisfy all three
side conditions by computation. -/

theorem replFuel_no_new (pat old ins : List Char) (hpat : pat ≠ [])
    (hlen : pat.length ≤ old.length)
    (h1 : containsSub pat (old ++ ins) = false)
    (h2 : ∀ k, k < pat.length → 0 < k →
      (old ++ ins).drop ((old ++ ins).length - k) ≠ pat.take k) :
    ∀ f s, s.length ≤ f → containsSub pat s = false →
      containsSub pat (replFuel old (old ++ ins) f s) = false ∧
      (∀ k, k < pat.length → 0 < k →
        isPre (pat.drop k) (replFuel old (old ++ ins) f s) = true →
        isPre (pat.drop k) s = true) := by
  have hpatlen : 0 < pat.length := List.length_pos.mpr hpat
  have hold : old ≠ [] := by
    intro h
    subst h
    have hle0 : pat.length ≤ 0 := hlen
    omega
  have holdE : old.isEmpty = false := by
    cases old with
    | nil => exact absurd rfl hold
    | cons a as => rfl
  have hoi : (old ++ ins).length = old.length + ins.length := List.length_append old ins
  intro f
  induction f with
  | zero =>
    intro s hsf hs
    have hs0 : s = [] := List.length_eq_zero.mp (Nat.le_zero.mp hsf)
    subst hs0
    refine ⟨hs, ?_⟩
    intro k hk _ hpre
    have hpre' : isPre (pat.drop k) [] = true := hpre
    have hnil : pat.drop k = [] := isPre_nil_iff.mp hpre'
    have := List.drop_eq_nil_iff.mp hnil
    omega
  | succ f ih =>
    intro s hsf hs
    cases s with
    | nil =>
      refine ⟨hs, ?_⟩
      intro k hk _ hpre
      have hpre' : isPre (pat.drop k) [] = true := hpre
      have hnil : pat.drop k = [] := isPre_nil_iff.mp hpre'
      have := List.drop_eq_nil_iff.mp hnil
      omega
    | cons c t =>
      have htf : t.length ≤ f := by
        simp only [List.length_cons] at hsf
        omega
      cases hp : isPre old (c :: t) with
      | false =>
        have hru : replFuel old (old ++ ins) (f + 1) (c :: t)
            = c :: replFuel old (old ++ ins) f t := by
          simp only [replFuel, hp, Bool.false_and, Bool.false_eq_true, if_false]
        have hst : containsSub pat t = false := by
          have := containsSub_drop_false 1 hs
          simpa using this
        have iht := ih t htf hst
        rw [hru]
        constructor
        · cases hcc : containsSub pat (c :: replFuel old (old ++ ins) f t) with
          | false => rfl
          | true =>
            exfalso
            obtain ⟨i, hi⟩ := containsSub_iff.mp hcc
            cases i with
            | zero =>
              simp only [List.drop_zero] at hi
              obtain ⟨q, qs, hq⟩ : ∃ q qs, pat = q :: qs := by
                cases pat with
                | nil => exact absurd rfl hpat
                | cons q qs => exact ⟨q, qs, rfl⟩
              rw [hq] at hi
              simp only [isPre, Bool.and_eq_true, beq_iff_eq] at hi
              obtain ⟨hqc, hqs⟩ := hi
              have hqs' : isPre (pat.drop 1) (replFuel old (old ++ ins) f t) = true := by
                rw [hq]
                exact hqs
              have hqst : isPre qs t = true := by
                rcases Nat.lt_or_ge 1 pat.length with h1lt | h1le
                · have hiht := iht.2 1 h1lt (by omega) hqs'
                  rw [hq] at hiht
                  exact hiht
                · have hnil : pat.drop 1 = [] := List.drop_eq_nil_of_le h1le
                  rw [hq] at hnil
                  simp only [List.drop_succ_cons, List.drop_zero] at hnil
                  rw [hnil]
                  rfl
              have hps : isPre pat (c :: t) = true := by
                rw [hq]
                simp [isPre, hqc, hqst]
              have hc2 := containsSub_of_at (i := 0) (s := c :: t) (by simpa using hps)
              rw [hs] at hc2
              exact absurd hc2 (by simp)
            | succ i =>
              have hi' : isPre pat ((replFuel old (old ++ ins) f t).drop i) = true := by
                simpa [List.drop_succ_cons] using hi
              have hc2 := containsSub_of_at hi'
              rw [iht.1] at hc2
              exact absurd hc2 (by simp)
        · intro k hk hk0 hpre
          obtain ⟨q, qs, hq⟩ : ∃ q qs, pat.drop k = q :: qs := by
            cases hd : pat.drop k with
            | nil =>
              have := List.drop_eq_nil_iff.mp hd
              omega
            | cons q qs => exact ⟨q, qs, rfl⟩
          rw [hq] at hpre
          simp only [isPre, Bool.and_eq_true, beq_iff_eq] at hpre
          obtain ⟨hqc, hqs⟩ := hpre
          have hq1 : pat.drop (k + 1) = qs := by
            have hdd : (pat.drop k).drop 1 = qs := by rw [hq]; rfl
            rw [List.drop_drop] at hdd
            exact hdd
          have hqst : isPre qs t = true := by
            rcases Nat.lt_or_ge (k + 1) pat.length with hk1 | hk1
            · have := iht.2 (k + 1) hk1 (by omega) (by rw [hq1]; exact hqs)
              rw [hq1] at this
              exact this
            · have hnil : pat.drop (k + 1) = [] := List.drop_eq_nil_of_le hk1
              have hqsnil : qs = [] := by rw [← hq1]; exact hnil
              rw [hqsnil]
              rfl
          rw [hq]
          simp [isPre, hqc, hqst]
      | true =>
        obtain ⟨s2, hs2⟩ := isPre_iff.mp hp
        have hru : replFuel old (old ++ ins) (f + 1) (c :: t)
            = (old ++ ins) ++ replFuel old (old ++ ins) f (t.drop (old.length - 1)) := by
          simp only [replFuel, hp, holdE, Bool.not_false, Bool.and_self, if_true]
        obtain ⟨m, hm⟩ : ∃ m, old.length = m + 1 := by
          cases old with
          | nil => exact absurd rfl hold
          | cons a as => exact ⟨as.length, by simp⟩
        have hdrop : t.drop (old.length - 1) = s2 := by
          have hd1 : (c :: t).drop old.length = s2 := by rw [hs2, List.drop_left]
          rw [hm] at hd1
          rw [hm]
          simpa [List.drop_succ_cons] using hd1
        have hs2f : s2.length ≤ f := by
          have hlc : (c :: t).length = old.length + s2.length := by
            rw [hs2]
            exact List.length_append old s2
          simp only [List.length_cons] at hlc hsf
          omega
        have hss2 : containsSub pat s2 = false := by
          have hcd := containsSub_drop_false old.length hs
          rw [hs2, List.drop_left] at hcd
          exact hcd
        have ihs := ih s2 hs2f hss2
        rw [hru, hdrop]
        constructor
        · cases hcc : containsSub pat ((old ++ ins) ++ replFuel old (old ++ ins) f s2) with
          | false => rfl
          | true =>
            exfalso
            obtain ⟨i, hi⟩ := containsSub_iff.mp hcc
            rcases Nat.lt_or_ge i (old ++ ins).length with hiN | hiN
            · have hsplit : ((old ++ ins) ++ replFuel old (old ++ ins) f s2).drop i
                  = (old ++ ins).drop i ++ replFuel old (old ++ ins) f s2 :=
                List.drop_append_of_le_length (Nat.le_of_lt hiN)
              rw [hsplit] at hi
              have hLlen : ((old ++ ins).drop i).length = (old ++ ins).length - i := by
                simp
              rcases Nat.lt_or_ge ((old ++ ins).length - i) pat.length with hLp | hLp
              · have htk := isPre_take_eq hi (by rw [hLlen]; omega)
                rw [hLlen] at htk
                have hieq : i = (old ++ ins).length - ((old ++ ins).length - i) := by omega
                refine h2 ((old ++ ins).length - i) hLp (by omega) ?_
                rw [← hieq]
                exact htk.symm
              · have hin := isPre_append_left hi (by rw [hLlen]; exact hLp)
                have hc2 := containsSub_of_at hin
                rw [h1] at hc2
                exact absurd hc2 (by simp)
            · have hdd : ((old ++ ins) ++ replFuel old (old ++ ins) f s2).drop i
                  = (replFuel old (old ++ ins) f s2).drop (i - (old ++ ins).length) := by
                have hieq : i = (old ++ ins).length + (i - (old ++ ins).length) := by omega
                conv_lhs => rw [hieq]
                rw [← List.drop_drop, List.drop_left]
              rw [hdd] at hi
              have hc2 := containsSub_of_at hi
              rw [ihs.1] at hc2
              exact absurd hc2 (by simp)
        · intro k hk hk0 hpre
          have hdl : (pat.drop k).length = pat.length - k := by simp
          have hp1 : isPre (pat.drop k) (old ++ ins) = true :=
            isPre_append_left hpre (by rw [hdl]; omega)
          have hp2 : isPre (pat.drop k) old = true :=
            isPre_append_left hp1 (by rw [hdl]; omega)
          have hp3 : isPre (pat.drop k) (old ++ s2) = true := isPre_extend s2 hp2
          rw [hs2]
          exact hp3

theorem pyReplace_no_new (pat old ins : List Char) (hpat : pat ≠ [])
    (hlen : pat.length ≤ old.length)
    (h1 : containsSub pat (old ++ ins) = false)
    (h2 : ∀ k, k < pat.length → 0 < k →
      (old ++ ins).drop ((old ++ ins).length - k) ≠ pat.take k)
    (s : List Char) (hs : containsSub pat s = false) :
    containsSub pat (pyReplace s old (old ++ ins)) = false :=
  (replFuel_no_new pat old ins hpat hlen h1 h2 s.length s (Nat.le_refl _) hs).1

theorem pyFind_eq_none {pat s : List Char} (h : containsSub pat s = false) :
    pyFind pat s = none := by
  unfold containsSub at h
  cases hf : pyFind pat s
  · rfl
  · rw [hf] at h
    simp at h

theorem toshyStep1_no_start {content : List Char}
    (h : containsSub startMarker content = false) :
    containsSub startMarker (toshyStep1 content) = false := by
  unfold toshyStep1
  split
  · exact pyReplace_no_new startMarker settingsMarker overrideConfig
      (by decide) (by decide) (by decide) (by decide) content h
  · exact h

theorem toshyStep1_no_end {content : List Char}
    (h : containsSub endMarker content = false) :
    containsSub endMarker (toshyStep1 content) = false := by
  unfold toshyStep1
  split
  · exact pyReplace_no_new endMarker settingsMarker overrideConfig
      (by decide) (by decide) (by decide) (by decide) content h
  · exact h

/-- C8 (amended): for every Toshy config content that does not contain
the file-wide customization signature and does not contain both slice
sentinels, the session returns `MarkersNotFound` and the file on disk is
byte-unchanged; in particular neither the keyboard-type override nor the
emacs-line substitutions prepared earlier in the session are written. -/
theorem toshy_markers_missing_no_write (content : List Char)
    (hsig : containsSub toshySignature content = false)
    (hmk : ¬ (containsSub startMarker content = true ∧
      containsSub endMarker content = true)) :
    configureToshy content = (content, ToshyResult.markersNotFound) := by
  have hone : containsSub startMarker content = false ∨
      containsSub endMarker content = false := by
    cases hS : containsSub startMarker content with
    | false => exact Or.inl rfl
    | true =>
      cases hE : containsSub endMarker content with
      | false => exact Or.inr rfl
      | true => exact absurd ⟨hS, hE⟩ hmk
  have hsp : spliceStep (toshyStep1 content) = (toshyStep1 content, SpliceResult.markersNotFound) := by
    rcases hone with hS | hE
    · have hf := pyFind_eq_none (toshyStep1_no_start hS)
      simp [spliceStep, hf]
    · have hf := pyFind_eq_none (toshyStep1_no_end hE)
      cases hfs : pyFind startMarker (toshyStep1 content) with
      | none => simp [spliceStep, hfs]
      | some i => simp [spliceStep, hfs, hf]
  simp [configureToshy, hsig, hsp]

/-- C8 (counterexample): a file that contains neither slice sentinel but
does contain the file-wide signature makes the session return
`AlreadyConfigured`, not `MarkersNotFound` as the claim states for every
file lacking the sentinels (the file is still byte-unchanged). -/
theorem toshy_signature_precedes_marker_check :
    containsSub startMarker toshySignature = false ∧
    containsSub endMarker toshySignature = false ∧
    configureToshy toshySignature = (toshySignature, ToshyResult.alreadyConfigured) ∧
    ToshyResult.alreadyConfigured ≠ ToshyResult.markersNotFound :=
  ⟨rfl, rfl, rfl, by decide⟩

/-- C8 (witness): the amended theorem applied to a concrete file with no
signature and no sentinels. -/
theorem toshy_markers_missing_no_write_witness :
    configureToshy ("hello world".data) = ("hello world".data, ToshyResult.markersNotFound) :=
  toshy_markers_missing_no_write ("hello world".data) rfl (by decide)

/-- C10: the whole Toshy patch session is gated by the file-wide
signature check: when the signature occurs anywhere in the content the
session returns immediately with `AlreadyConfigured` and the file is
byte-unchanged (none of the three edits is applied); conversely
`AlreadyConfigured` is returned only in that case, so the per-slice
`modmap(` check is reached only when the signature is absent. -/
theorem toshy_signature_gate (content : List Char) :
    (containsSub toshySignature content = true →
      configureToshy content = (content, ToshyResult.alreadyConfigured)) ∧
    ((configureToshy content).2 = ToshyResult.alreadyConfigured ↔
      containsSub toshySignature content = true) := by
  constructor
  · intro h
    simp [configureToshy, h]
  · constructor
    · intro h
      cases hsig : containsSub toshySignature content with
      | true => rfl
      | false =>
        exfalso
        revert h
        simp only [configureToshy, hsig, Bool.false_eq_true, if_false]
        rcases hsp : spliceStep (toshyStep1 content) with ⟨c2, r⟩
        cases r <;> simp
    · intro h
      simp [configureToshy, h]

/-- C10 (witness): the gate theorem applied to a file that is exactly the
signature string. -/
theorem toshy_signature_gate_witness :
    configureToshy toshySignature = (toshySignature, ToshyResult.alreadyConfigured) ∧
    ((configureToshy toshySignature).2 = ToshyResult.alreadyConfigured ↔
      containsSub toshySignature toshySignature = true) :=
  ⟨(toshy_signature_gate toshySignature).1 rfl, (toshy_signature_gate toshySignature).2⟩

/-- C1 (amended): when the file decomposes as `A ++ startMarker ++ S ++
endMarker ++ B` with the first `startMarker` occurrence at `|A|`, the
first `endMarker` occurrence right after `S`, and no `modmap(` signature
inside the slice `S`, the splice preserves the content up to and
including the start marker and the content from the end marker onward
byte-for-byte, but the pre-existing slice content `S` is discarded and
replaced by the inserted block (it is not preserved). -/
theorem spliceOnce_frame_amended (A S B : List Char)
    (hA : ∀ i, i < A.length →
      isPre startMarker ((A ++ startMarker ++ S ++ endMarker ++ B).drop i) = false)
    (hE : ∀ i, i < A.length + startMarker.length + S.length →
      isPre endMarker ((A ++ startMarker ++ S ++ endMarker ++ B).drop i) = false)
    (hS : containsSub modmapSig S = false) :
    spliceStep (A ++ startMarker ++ S ++ endMarker ++ B)
      = (A ++ startMarker ++ spliceWrap ++ endMarker ++ B, SpliceResult.inserted) := by
  have hgrp1 : A ++ startMarker ++ S ++ endMarker ++ B
      = A ++ (startMarker ++ (S ++ (endMarker ++ B))) := by
    simp [List.append_assoc]
  have hgrp2 : A ++ startMarker ++ S ++ endMarker ++ B
      = (A ++ startMarker) ++ (S ++ (endMarker ++ B)) := by
    simp [List.append_assoc]
  have hgrp3 : A ++ startMarker ++ S ++ endMarker ++ B
      = (A ++ startMarker ++ S) ++ (endMarker ++ B) := by
    simp [List.append_assoc]
  have hlen2 : ((A ++ startMarker) : List Char).length = A.length + startMarker.length :=
    List.length_append A startMarker
  have hlen3 : ((A ++ startMarker ++ S) : List Char).length
      = A.length + startMarker.length + S.length := by
    rw [List.length_append, hlen2]
  have hfindS : pyFind startMarker (A ++ startMarker ++ S ++ endMarker ++ B)
      = some A.length := by
    refine pyFind_eq_some ?_ hA
    rw [hgrp1, List.drop_left]
    exact isPre_self_append startMarker (S ++ (endMarker ++ B))
  have hdrop3 : (A ++ startMarker ++ S ++ endMarker ++ B).drop
      (A.length + startMarker.length + S.length) = endMarker ++ B := by
    conv_lhs => rw [hgrp3]
    exact List.drop_left' hlen3
  have hfindE : pyFind endMarker (A ++ startMarker ++ S ++ endMarker ++ B)
      = some (A.length + startMarker.length + S.length) := by
    refine pyFind_eq_some ?_ hE
    rw [hdrop3]
    exact isPre_self_append endMarker B
  have hdrop2 : (A ++ startMarker ++ S ++ endMarker ++ B).drop
      (A.length + startMarker.length) = S ++ (endMarker ++ B) := by
    conv_lhs => rw [hgrp2]
    exact List.drop_left' hlen2
  have htake2 : (A ++ startMarker ++ S ++ endMarker ++ B).take
      (A.length + startMarker.length) = A ++ startMarker := by
    conv_lhs => rw [hgrp2]
    exact List.take_left' hlen2
  have hslice : ((A ++ startMarker ++ S ++ endMarker ++ B).drop
        (A.length + startMarker.length)).take
      (A.length + startMarker.length + S.length - (A.length + startMarker.length)) = S := by
    rw [hdrop2]
    have : A.length + startMarker.length + S.length - (A.length + startMarker.length)
        = S.length := by omega
    rw [this]
    exact List.take_left S (endMarker ++ B)
  simp only [spliceStep, hfindS, hfindE, hslice, hS, Bool.false_eq_true, if_false,
    htake2, hdrop3]
  simp [List.append_assoc]

/-- C1 (counterexample): a target file holding both markers with the
pre-existing slice content `KEEPME` (which does not contain the
`modmap(` signature); the session applies the insertion yet the written
file no longer contains `KEEPME`, so the content strictly between the
markers is not preserved byte-for-byte as the claim states. -/
theorem toshy_slice_content_destroyed :
    (configureToshy ("x".data ++ startMarker ++ "KEEPME".data ++ endMarker ++ "y".data)).2
      = ToshyResult.updated ∧
    containsSub ("KEEPME".data)
      ("x".data ++ startMarker ++ "KEEPME".data ++ endMarker ++ "y".data) = true ∧
    containsSub ("KEEPME".data)
      (configureToshy ("x".data ++ startMarker ++ "KEEPME".data ++ endMarker ++ "y".data)).1
      = false :=
  ⟨rfl, rfl, rfl⟩

/-- C1 (witness): the amended frame theorem applied to a concrete file
`"x" ++ startMarker ++ " " ++ endMarker ++ "y"`. -/
theorem spliceOnce_frame_amended_witness :
    spliceStep (("x".data) ++ startMarker ++ (" ".data) ++ endMarker ++ ("y".data))
      = (("x".data) ++ startMarker ++ spliceWrap ++ endMarker ++ ("y".data),
        SpliceResult.inserted) :=
  spliceOnce_frame_amended ("x".data) (" ".data) ("y".data)
    (by decide) (by decide) (by decide)

/-! ## Fence codec theorems -/

theorem fences_present_after (content : List Char) (ls : List (List Char))
    (label : List Char) (css : Bool) :
    containsSub (fenceStart css label) (addFenced content ls label css).1 = true ∧
    containsSub (fenceEnd css label) (addFenced content ls label css).1 = true := by
  unfold addFenced
  cases hg : (containsSub (fenceStart css label) content &&
      containsSub (fenceEnd css label) content) with
  | true =>
    simp only [if_true]
    exact Bool.and_eq_true_iff.mp hg
  | false =>
    simp only [Bool.false_eq_true, if_false]
    constructor
    · refine containsSub_append_right content ?_
      have hsh : renderFence css label ls
          = ['\n'] ++ (fenceStart css label ++
            (['\n'] ++ (ls.map (fun l => l ++ ['\n'])).flatten ++ fenceEnd css label ++ ['\n'])) := by
        unfold renderFence
        simp [List.append_assoc]
      rw [hsh]
      exact containsSub_mid (fenceStart css label) ['\n'] _
    · refine containsSub_append_right content ?_
      have hsh : renderFence css label ls
          = (['\n'] ++ fenceStart css label ++ ['\n'] ++
              (ls.map (fun l => l ++ ['\n'])).flatten) ++ (fenceEnd css label ++ ['\n']) := by
        unfold renderFence
        simp [List.append_assoc]
      rw [hsh]
      exact containsSub_mid (fenceEnd css label) _ ['\n']

/-- C4: the fenced-block append is idempotent: on any current content,
any lines, label and format kind, a second run on the content produced by
the first run detects both delimiters, reports `AlreadyPresent`, and the
content after the second run is byte-identical to the content after the
first run. -/
theorem fenced_append_idempotent (content : List Char) (ls : List (List Char))
    (label : List Char) (css : Bool) :
    addFenced (addFenced content ls label css).1 ls label css
      = ((addFenced content ls label css).1, FenceResult.alreadyPresent) := by
  have h := fences_present_after content ls label css
  generalize hc : (addFenced content ls label css).1 = c1 at h ⊢
  unfold addFenced
  rw [h.1, h.2]
  rfl

/-- C9: fence detection is gated by label identity, not content
identity: after a block with `lines1` is appended for a label, an append
request with the same label and kind but different `lines2` reports
`AlreadyPresent` and does not change the file, because the check only
looks for the two delimiter strings of the label as substrings. -/
theorem fence_gated_by_label (content : List Char) (lines1 lines2 : List (List Char))
    (label : List Char) (css : Bool) :
    addFenced (addFenced content lines1 label css).1 lines2 label css
      = ((addFenced content lines1 label css).1, FenceResult.alreadyPresent) := by
  have h := fences_present_after content lines1 label css
  generalize hc : (addFenced content lines1 label css).1 = c1 at h ⊢
  unfold addFenced
  rw [h.1, h.2]
  rfl

/-! ## Backup manager and restore engine theorems -/

theorem lastIdxOf_eq_none {c : Char} {l : List Char} (h : c ∉ l) :
    lastIdxOf c l = none := by
  induction l with
  | nil => rfl
  | cons x t ih =>
    have hx : x ≠ c := fun he => h (he ▸ List.mem_cons_self x t)
    have ht : c ∉ t := fun hm => h (List.mem_cons_of_mem x hm)
    simp [lastIdxOf, ih ht, hx]

theorem lastIdxOf_append_not_mem {c : Char} {b : List Char} (a : List Char)
    (hb : c ∉ b) : lastIdxOf c (a ++ b) = lastIdxOf c a := by
  induction a with
  | nil =>
    show lastIdxOf c b = lastIdxOf c []
    rw [lastIdxOf_eq_none hb]
    rfl
  | cons x a' ih =>
    show lastIdxOf c (x :: (a' ++ b)) = lastIdxOf c (x :: a')
    cases h : lastIdxOf c a' <;> simp [lastIdxOf, ih, h]

theorem lastIdxOf_append_self {c : Char} {b : List Char} (a : List Char)
    (hb : c ∉ b) : lastIdxOf c (a ++ c :: b) = some a.length := by
  induction a with
  | nil => simp [lastIdxOf, lastIdxOf_eq_none hb]
  | cons x a' ih =>
    show lastIdxOf c (x :: (a' ++ c :: b)) = some (x :: a').length
    simp [lastIdxOf, ih]

theorem lastIdxOf_lt_length {c : Char} {l : List Char} {i : Nat}
    (h : lastIdxOf c l = some i) : i < l.length := by
  induction l generalizing i with
  | nil => simp [lastIdxOf] at h
  | cons x t ih =>
    simp only [lastIdxOf] at h
    cases ht : lastIdxOf c t with
    | some j =>
      rw [ht] at h
      have hj := ih ht
      simp only [Option.some.injEq] at h
      simp only [List.length_cons]
      omega
    | none =>
      rw [ht] at h
      by_cases hx : x = c
      · rw [if_pos hx] at h
        simp only [Option.some.injEq] at h
        simp only [List.length_cons]
        omega
      · rw [if_neg hx] at h
        exact absurd h (by simp)

theorem dir_append_name (p : List Char) : dirOf p ++ nameOf p = p := by
  unfold dirOf nameOf
  cases h : lastIdxOf '/' p with
  | none => simp
  | some i => simp [List.take_append_drop]

theorem stem_append_suffix (n : List Char) : nameStem n ++ nameSuffix n = n := by
  cases h : lastIdxOf '.' n with
  | none => simp [nameStem, nameSuffix, h]
  | some i =>
    by_cases hc : 0 < i ∧ i < n.length - 1
    · simp only [nameStem, nameSuffix, h, if_pos hc]
      have hi : i < n.length := lastIdxOf_lt_length h
      have hlen : (n.drop i).length = n.length - i := by simp
      rw [hlen]
      have hni : n.length - (n.length - i) = i := by omega
      rw [hni]
      exact List.take_append_drop i n
    · simp only [nameStem, nameSuffix, h, if_neg hc]
      simp

theorem backupPath_eq (p : List Char) : backupPath p = p ++ ".original".data := by
  unfold backupPath withSuffix pathSuffix
  calc dirOf p ++ nameStem (nameOf p) ++ (nameSuffix (nameOf p) ++ ".original".data)
      = dirOf p ++ (nameStem (nameOf p) ++ nameSuffix (nameOf p)) ++ ".original".data := by
        simp [List.append_assoc]
    _ = dirOf p ++ nameOf p ++ ".original".data := by rw [stem_append_suffix]
    _ = p ++ ".original".data := by rw [dir_append_name]

theorem backupPath_ne (p : List Char) : backupPath p ≠ p := by
  rw [backupPath_eq]
  intro h
  have hl := congrArg List.length h
  rw [List.length_append] at hl
  have h9 : (".original".data).length = 9 := rfl
  omega

theorem nameOf_append {q : List Char} (p : List Char) (hq : ('/' : Char) ∉ q) :
    nameOf (p ++ q) = nameOf p ++ q := by
  unfold nameOf
  rw [lastIdxOf_append_not_mem p hq]
  cases h : lastIdxOf '/' p with
  | none => rfl
  | some i =>
    have hi : i < p.length := lastIdxOf_lt_length h
    exact List.drop_append_of_le_length (by omega)

theorem dirOf_append {q : List Char} (p : List Char) (hq : ('/' : Char) ∉ q) :
    dirOf (p ++ q) = dirOf p := by
  unfold dirOf
  rw [lastIdxOf_append_not_mem p hq]
  cases h : lastIdxOf '/' p with
  | none => rfl
  | some i =>
    have hi : i < p.length := lastIdxOf_lt_length h
    exact List.take_append_of_le_length (by omega)

theorem suffix_backup {n : List Char} (hn : n ≠ []) :
    nameSuffix (n ++ ".original".data) = ".original".data := by
  have horig : ".original".data = '.' :: "original".data := rfl
  rw [horig]
  have hnpos : 0 < n.length := List.length_pos.mpr hn
  have hlt : n.length < (n ++ '.' :: "original".data).length - 1 := by
    rw [List.length_append]
    have h9 : ('.' :: "original".data).length = 9 := rfl
    omega
  have hli : lastIdxOf '.' (n ++ '.' :: "original".data) = some n.length :=
    lastIdxOf_append_self n (by decide)
  simp only [nameSuffix, hli]
  rw [if_pos ⟨hnpos, hlt⟩]
  exact List.drop_left n ('.' :: "original".data)

theorem restoreTarget_backup {p : List Char} (hname : nameOf p ≠ []) :
    restoreTarget (p ++ ".original".data) = p := by
  have hslash : ('/' : Char) ∉ ".original".data := by decide
  have hnm := nameOf_append p hslash
  have hdr := dirOf_append p hslash
  have hsfx : nameSuffix (nameOf (p ++ ".original".data)) = ".original".data := by
    rw [hnm]
    exact suffix_backup hname
  have hstem : nameStem (nameOf (p ++ ".original".data)) = nameOf p := by
    unfold nameStem
    rw [hsfx, hnm]
    have hlen : (nameOf p ++ ".original".data).length - (".original".data).length
        = (nameOf p).length := by
      rw [List.length_append]
      omega
    rw [hlen]
    exact List.take_left (nameOf p) _
  have ht : withSuffix (p ++ ".original".data) [] = p := by
    unfold withSuffix
    rw [hdr, hstem, List.append_nil]
    exact dir_append_name p
  unfold restoreTarget
  simp only [ht, hdr, hstem, dir_append_name]
  split <;> rfl

theorem fsUpdate_same (fs : FS) (p : List Char) (v : Option (List Char)) :
    fsUpdate fs p v p = v := by
  simp [fsUpdate]

theorem fsUpdate_other (fs : FS) {p q : List Char} (v : Option (List Char))
    (h : q ≠ p) : fsUpdate fs p v q = fs q := by
  simp [fsUpdate, h]

/-- C5: backup-once invariant: starting from an existing target with
content `a` and no sidecar, running `EnsureBackup`, mutating the live
file, running it again, mutating again, and running it a third time
leaves exactly one sidecar whose bytes are the original `a`; the second
and third calls report `AlreadyExists`, a call never overwrites an
existing sidecar, and a call writes no path other than the sidecar
path. -/
theorem backup_at_most_once (fs : FS) (p a b1 b2 : List Char)
    (hlive : fs p = some a) (hfresh : fs (backupPath p) = none) :
    (ensureBackup (fsUpdate (ensureBackup (fsUpdate (ensureBackup fs p).1 p
        (some b1)) p).1 p (some b2)) p).1 (backupPath p) = some a ∧
    (ensureBackup (fsUpdate (ensureBackup fs p).1 p (some b1)) p).2
      = BackupResult.alreadyExists ∧
    (ensureBackup (fsUpdate (ensureBackup (fsUpdate (ensureBackup fs p).1 p
        (some b1)) p).1 p (some b2)) p).2 = BackupResult.alreadyExists ∧
    (∀ g : FS, ∀ c : List Char, g (backupPath p) = some c →
      (ensureBackup g p).1 (backupPath p) = some c) ∧
    (∀ g : FS, ∀ q : List Char, q ≠ backupPath p → (ensureBackup g p).1 q = g q) := by
  have he1 : ensureBackup fs p = (fsUpdate fs (backupPath p) (some a), .created) := by
    unfold ensureBackup
    rw [hlive, hfresh]
  have h1p : fsUpdate (fsUpdate fs (backupPath p) (some a)) p (some b1) p = some b1 :=
    fsUpdate_same _ _ _
  have h1b : fsUpdate (fsUpdate fs (backupPath p) (some a)) p (some b1) (backupPath p)
      = some a := by
    rw [fsUpdate_other _ _ (backupPath_ne p), fsUpdate_same]
  have he2 : ensureBackup (fsUpdate (fsUpdate fs (backupPath p) (some a)) p (some b1)) p
      = (fsUpdate (fsUpdate fs (backupPath p) (some a)) p (some b1), .alreadyExists) := by
    unfold ensureBackup
    rw [h1p, h1b]
  have h2p : fsUpdate (fsUpdate (fsUpdate fs (backupPath p) (some a)) p (some b1)) p
      (some b2) p = some b2 := fsUpdate_same _ _ _
  have h2b : fsUpdate (fsUpdate (fsUpdate fs (backupPath p) (some a)) p (some b1)) p
      (some b2) (backupPath p) = some a := by
    rw [fsUpdate_other _ _ (backupPath_ne p)]
    exact h1b
  have he3 : ensureBackup (fsUpdate (fsUpdate (fsUpdate fs (backupPath p) (some a)) p
      (some b1)) p (some b2)) p
      = (fsUpdate (fsUpdate (fsUpdate fs (backupPath p) (some a)) p (some b1)) p
        (some b2), .alreadyExists) := by
    unfold ensureBackup
    rw [h2p, h2b]
  rw [he1]
  refine ⟨?_, ?_, ?_, ?_, ?_⟩
  · rw [he2, he3]
    exact h2b
  · rw [he2]
  · rw [he2, he3]
  · intro g c hg
    unfold ensureBackup
    cases hgp : g p with
    | none => exact hg
    | some w =>
      rw [hg]
      exact hg
  · intro g q hq
    unfold ensureBackup
    cases hgp : g p with
    | none => rfl
    | some w =>
      cases hgb : g (backupPath p) with
      | some u => rfl
      | none => exact fsUpdate_other _ _ hq

/-- C5 (witness): the backup-once theorem at a concrete filesystem with
one file `.bashrc` holding `AAA` and two mutations. -/
theorem backup_at_most_once_witness :
    (ensureBackup (fsUpdate (ensureBackup (fsUpdate (ensureBackup
        (fsUpdate fsEmpty (".bashrc".data) (some ("AAA".data))) (".bashrc".data)).1
        (".bashrc".data) (some ("B1".data))) (".bashrc".data)).1
        (".bashrc".data) (some ("B2".data))) (".bashrc".data)).1
      (backupPath (".bashrc".data)) = some ("AAA".data) :=
  (backup_at_most_once (fsUpdate fsEmpty (".bashrc".data) (some ("AAA".data)))
    (".bashrc".data) ("AAA".data) ("B1".data) ("B2".data) rfl rfl).1

/-- C6: restore round-trip: starting from an existing target `p` with
content `a` and no sidecar, after `EnsureBackup` and a mutation of the
live file to `b`, restoring the sidecar copies the original bytes back
over the live path; the live path is derived from the sidecar path by
stripping exactly the `.original` suffix. -/
theorem restore_round_trip (fs : FS) (p a b : List Char)
    (hname : nameOf p ≠ [])
    (hlive : fs p = some a) (hfresh : fs (backupPath p) = none) :
    restoreTarget (backupPath p) = p ∧
    restoreOne (fsUpdate (ensureBackup fs p).1 p (some b)) (backupPath p) p
      = some a := by
  have hrt : restoreTarget (backupPath p) = p := by
    rw [backupPath_eq]
    exact restoreTarget_backup hname
  refine ⟨hrt, ?_⟩
  have he : ensureBackup fs p = (fsUpdate fs (backupPath p) (some a), .created) := by
    unfold ensureBackup
    rw [hlive, hfresh]
  rw [he]
  have hbp : fsUpdate (fsUpdate fs (backupPath p) (some a)) p (some b) (backupPath p)
      = some a := by
    rw [fsUpdate_other _ _ (backupPath_ne p), fsUpdate_same]
  unfold restoreOne
  rw [hbp, hrt]
  exact fsUpdate_same _ _ _

/-- C6 (witness): the round trip at a concrete path with a directory
component, contents `AAA` then `BBB`. -/
theorem restore_round_trip_witness :
    restoreTarget (backupPath ("home/user/.bashrc".data)) = ("home/user/.bashrc".data) ∧
    restoreOne (fsUpdate (ensureBackup (fsUpdate fsEmpty ("home/user/.bashrc".data)
        (some ("AAA".data))) ("home/user/.bashrc".data)).1 ("home/user/.bashrc".data)
        (some ("BBB".data))) (backupPath ("home/user/.bashrc".data))
      ("home/user/.bashrc".data) = some ("AAA".data) :=
  restore_round_trip (fsUpdate fsEmpty ("home/user/.bashrc".data) (some ("AAA".data)))
    ("home/user/.bashrc".data) ("AAA".data) ("BBB".data) (by decide) rfl rfl

/-! ## Structured merge theorems -/

theorem lookupKey_append_some {k : List Char} {l : List (List Char × JVal)} {v : JVal}
    (h : lookupKey k l = some v) (m : List (List Char × JVal)) :
    lookupKey k (l ++ m) = some v := by
  induction l with
  | nil => simp [lookupKey] at h
  | cons e t ih =>
    by_cases he : e.1 = k
    · simp only [lookupKey, if_pos he] at h ⊢
      exact h
    · simp only [lookupKey, if_neg he] at h ⊢
      exact ih h

theorem lookupKey_append_none {k : List Char} {l : List (List Char × JVal)}
    (h : lookupKey k l = none) (m : List (List Char × JVal)) :
    lookupKey k (l ++ m) = lookupKey k m := by
  induction l with
  | nil => rfl
  | cons e t ih =>
    by_cases he : e.1 = k
    · simp only [lookupKey, if_pos he] at h
      exact absurd h (by simp)
    · simp only [lookupKey, if_neg he] at h ⊢
      exact ih h

theorem lookupKey_replace_other {k' k : List Char} {v : JVal}
    (l : List (List Char × JVal)) (h : k' ≠ k) :
    lookupKey k' (l.map (fun e => if e.1 = k then (k, v) else e)) = lookupKey k' l := by
  induction l with
  | nil => rfl
  | cons e t ih =>
    by_cases he : e.1 = k
    · have hne : k ≠ k' := Ne.symm h
      simp only [List.map_cons, if_pos he, lookupKey, if_neg hne, if_neg (he ▸ hne)]
      exact ih
    · simp only [List.map_cons, if_neg he, lookupKey]
      by_cases he' : e.1 = k'
      · rw [if_pos he', if_pos he']
      · rw [if_neg he', if_neg he']
        exact ih

theorem lookupKey_replace_self {k : List Char} {v : JVal}
    (l : List (List Char × JVal)) (h : (lookupKey k l).isSome = true) :
    lookupKey k (l.map (fun e => if e.1 = k then (k, v) else e)) = some v := by
  induction l with
  | nil => simp [lookupKey] at h
  | cons e t ih =>
    by_cases he : e.1 = k
    · simp only [List.map_cons, if_pos he, lookupKey]
      simp
    · simp only [lookupKey, if_neg he] at h
      simp only [List.map_cons, if_neg he, lookupKey, if_neg he]
      exact ih h

theorem lookupKey_setKey_ne {k' k : List Char} (v : JVal)
    (l : List (List Char × JVal)) (h : k' ≠ k) :
    lookupKey k' (setKey k v l) = lookupKey k' l := by
  unfold setKey
  split
  · exact lookupKey_replace_other l h
  · cases hlk : lookupKey k' l with
    | some w => exact lookupKey_append_some hlk _
    | none =>
      rw [lookupKey_append_none hlk]
      have hne : k ≠ k' := Ne.symm h
      simp [lookupKey, hne]

theorem lookupKey_setKey_self (k : List Char) (v : JVal)
    (l : List (List Char × JVal)) :
    lookupKey k (setKey k v l) = some v := by
  unfold setKey
  split
  · next hh => exact lookupKey_replace_self l hh
  · next hh =>
    have hnone : lookupKey k l = none := by
      unfold hasKey at hh
      cases hx : lookupKey k l with
      | none => rfl
      | some w => rw [hx] at hh; exact absurd hh (by simp)
    rw [lookupKey_append_none hnone]
    simp [lookupKey]

theorem listHasStr_append (k : List Char) (xs ys : List JVal) :
    listHasStr k (xs ++ ys) = (listHasStr k xs || listHasStr k ys) := by
  induction xs with
  | nil => simp [listHasStr]
  | cons x t ih =>
    cases x <;> simp [listHasStr, ih, Bool.or_assoc]

/-- C7 (amended): on every parsed top-level mapping that lacks the
module key and whose `modules-right` value, when present, is an array,
the merge succeeds and: every key other than `modules-right` and the
module key keeps its original value; the module key is bound to the
fixed module configuration object; and `modules-right` is an array
containing the module name.  (The pre-existing `modules-right` array
itself is extended, which is what the counterexample forces the claim to
concede.) -/
theorem merge_preserves_unrelated_keys (fields : List (List Char × JVal))
    (hno : hasKey hlKey fields = false)
    (hmr : lookupKey mrKey fields = none ∨
      ∃ xs, lookupKey mrKey fields = some (JVal.arr xs)) :
    ∃ out, waybarMerge (JVal.obj fields) = MergeOutcome.merged out ∧
      (∀ k, k ≠ mrKey → k ≠ hlKey → lookupKey k out = lookupKey k fields) ∧
      lookupKey hlKey out = some hlModuleConfig ∧
      ∃ ys, lookupKey mrKey out = some (JVal.arr ys) ∧ listHasStr hlKey ys = true := by
  have hmh : mrKey ≠ hlKey := by decide
  rcases hmr with hnone | ⟨xs, hsome⟩
  · refine ⟨setKey hlKey hlModuleConfig (fields ++ [(mrKey, JVal.arr [JVal.str hlKey])]),
      ?_, ?_, ?_, ?_⟩
    · simp only [waybarMerge, pyMembership, hno, hnone]
    · intro k hkm hkh
      rw [lookupKey_setKey_ne _ _ hkh]
      cases hlk : lookupKey k fields with
      | some w => exact lookupKey_append_some hlk _
      | none =>
        rw [lookupKey_append_none hlk]
        have hne : mrKey ≠ k := Ne.symm hkm
        simp [lookupKey, hne]
    · exact lookupKey_setKey_self _ _ _
    · refine ⟨[JVal.str hlKey], ?_, ?_⟩
      · rw [lookupKey_setKey_ne _ _ hmh, lookupKey_append_none hnone]
        simp [lookupKey]
      · simp [listHasStr]
  · cases hm : listHasStr hlKey xs with
    | true =>
      refine ⟨setKey hlKey hlModuleConfig fields, ?_, ?_, ?_, ?_⟩
      · simp only [waybarMerge, pyMembership, hno, hsome, hm]
      · intro k hkm hkh
        exact lookupKey_setKey_ne _ _ hkh
      · exact lookupKey_setKey_self _ _ _
      · exact ⟨xs, by rw [lookupKey_setKey_ne _ _ hmh]; exact hsome, hm⟩
    | false =>
      refine ⟨setKey hlKey hlModuleConfig
        (setKey mrKey (JVal.arr (xs ++ [JVal.str hlKey])) fields), ?_, ?_, ?_, ?_⟩
      · simp only [waybarMerge, pyMembership, hno, hsome, hm]
      · intro k hkm hkh
        rw [lookupKey_setKey_ne _ _ hkh, lookupKey_setKey_ne _ _ hkm]
      · exact lookupKey_setKey_self _ _ _
      · refine ⟨xs ++ [JVal.str hlKey], ?_, ?_⟩
        · rw [lookupKey_setKey_ne _ _ hmh]
          exact lookupKey_setKey_self _ _ _
        · rw [listHasStr_append]
          simp [listHasStr]

/-- C7 (counterexample): on the mapping whose only key is
`modules-right` bound to `["clock"]` — a successfully parsed mapping
lacking the module key — the merge changes the value of the original
key `modules-right`, so the output does not contain every original key
with its original value unchanged as the claim states. -/
theorem merge_modifies_existing_modules_right :
    lookupKey mrKey [(mrKey, JVal.arr [JVal.str ("clock".data)])]
      = some (JVal.arr [JVal.str ("clock".data)]) ∧
    waybarMerge (JVal.obj [(mrKey, JVal.arr [JVal.str ("clock".data)])])
      = MergeOutcome.merged
          [(mrKey, JVal.arr [JVal.str ("clock".data), JVal.str hlKey]),
           (hlKey, hlModuleConfig)] ∧
    JVal.arr [JVal.str ("clock".data), JVal.str hlKey]
      ≠ JVal.arr [JVal.str ("clock".data)] := by
  refine ⟨rfl, rfl, ?_⟩
  intro h
  injection h with h1
  simp at h1

/-- C7 (witness): the amended theorem applied to the spec's example
mapping with keys `layer` and `modules-left`. -/
theorem merge_preserves_unrelated_keys_witness :
    ∃ out, waybarMerge (JVal.obj [("layer".data, JVal.str ("top".data)),
        ("modules-left".data, JVal.arr [JVal.str ("clock".data)])])
        = MergeOutcome.merged out ∧
      (∀ k, k ≠ mrKey → k ≠ hlKey → lookupKey k out = lookupKey k
        [("layer".data, JVal.str ("top".data)),
         ("modules-left".data, JVal.arr [JVal.str ("clock".data)])]) ∧
      lookupKey hlKey out = some hlModuleConfig ∧
      ∃ ys, lookupKey mrKey out = some (JVal.arr ys) ∧ listHasStr hlKey ys = true :=
  merge_preserves_unrelated_keys
    [("layer".data, JVal.str ("top".data)),
     ("modules-left".data, JVal.arr [JVal.str ("clock".data)])]
    rfl (Or.inl rfl)

/-- C2: the session performs no comment or trailing-comma stripping
before parsing: a status-bar config consisting of a `//` line comment
followed by `\x7b\x7d` is valid JSON after the spec's three
normalization passes (`specNormalize`), yet the code hands the raw text
to the parser and returns `ParseError`, leaving the file untouched and
never reaching the merge.  This confirms the divergence between the
spec's described stripping and the code. -/
theorem waybar_no_comment_stripping :
    specNormalize ("// keyboard layout\n\x7b\x7d".data) = ("\n\x7b\x7d".data) ∧
    pyJsonLoads ("\n\x7b\x7d".data) = some (JVal.obj []) ∧
    waybarSession ("// keyboard layout\n\x7b\x7d".data)
      = (("// keyboard layout\n\x7b\x7d".data), WaybarResult.parseError) :=
  ⟨rfl, rfl, rfl⟩

theorem parseVal_slash (f : Nat) (rest : List Char) : parseVal f ('/' :: rest) = none := by
  cases f with
  | zero => rfl
  | succ n => simp [parseVal, skipWs]

theorem pyJsonLoads_slash (rest : List Char) : pyJsonLoads ('/' :: rest) = none := by
  unfold pyJsonLoads
  rw [parseVal_slash]

theorem pyJsonLoads_provComment (X : List Char) : pyJsonLoads (provComment ++ X) = none := by
  have h : provComment ++ X
      = '/' :: ("/ OMARCHY CUSTOMIZATION: Added hyprland/language module\n".data ++ X) := rfl
  rw [h]
  exact pyJsonLoads_slash _

/-- C3: whenever a session run succeeds (returns `Merged` after writing
the file), re-running the session on the file it wrote does not return
`AlreadyConfigured`: the provenance comment the code prepends makes its
own output unparseable to its own strict JSON parse, so the re-run
returns `ParseError` (still without writing).  The module-key
idempotency check at the start of the merge is unreachable on the
second run. -/
theorem waybar_rerun_parse_error (content out : List Char)
    (h : waybarSession content = (out, WaybarResult.mergedOk)) :
    waybarSession out = (out, WaybarResult.parseError) := by
  cases hp : pyJsonLoads content with
  | none =>
    simp only [waybarSession, hp] at h
    exact absurd (congrArg Prod.snd h) (by simp)
  | some v =>
    simp only [waybarSession, hp] at h
    cases hm : waybarMerge v with
    | already =>
      simp only [hm] at h
      exact absurd (congrArg Prod.snd h) (by simp)
    | mergeError =>
      simp only [hm] at h
      exact absurd (congrArg Prod.snd h) (by simp)
    | merged fields =>
      simp only [hm] at h
      have hout : out = provComment ++ pyJsonDumps (JVal.obj fields) :=
        (congrArg Prod.fst h).symm
      rw [hout]
      simp [waybarSession, pyJsonLoads_provComment]

/-- C3 (witness): a first run on the config `\x7b\x7d` succeeds and
writes the provenance-commented output; the theorem applied there shows
the second run returns `ParseError`. -/
theorem waybar_rerun_parse_error_witness :
    waybarSession (provComment ++ pyJsonDumps (JVal.obj
        [(mrKey, JVal.arr [JVal.str hlKey]), (hlKey, hlModuleConfig)]))
      = (provComment ++ pyJsonDumps (JVal.obj
          [(mrKey, JVal.arr [JVal.str hlKey]), (hlKey, hlModuleConfig)]),
        WaybarResult.parseError) :=
  waybar_rerun_parse_error ("\x7b\x7d".data) _ rfl
